import Mathlib

/-!
Shallow embedding of the dual-decoder joint beam search of
`espnet/nets/pytorch_backend/e2e_st_transformer_dual.py`
(`E2EDualDecoder.recognize_and_translate_sum`, lines 453-743).

Scores are modelled as rationals, token ids as naturals.  The neural
dual decoder `forward_one_step` is an oracle (a function field of the
context): the beam-search controller only consumes the two per-stream
score vectors it returns.  The `end_detect` heuristic of
`espnet.nets.e2e_asr_common` (not part of the excerpt) is likewise an
oracle field.  Python lists of a hypothesis are modelled as values; the
in-place `append` at the max-length forcing step is guarded by
`last != eos` in the source, which makes the value semantics coincide
with the aliasing semantics on every reachable state (siblings sharing
one list object always agree on its content when the guard fires).
-/

namespace STDual

/-- A decoding hypothesis, the dict `{'score', 'yseq', 'yseq_asr'}` of the
source: cumulative joint score, ST-stream token ids, ASR-stream token ids. -/
structure Hyp where
  score : ℚ
  yseq : List ℕ
  yseq_asr : List ℕ
deriving Repr, DecidableEq

/-- The fields of `trans_args` read by `recognize_and_translate_sum`. -/
structure TransArgs where
  beam_size : ℕ
  penalty : ℚ
  nbest : ℕ
  maxlenratio : ℚ
  maxlenratio_asr : ℚ
  minlenratio : ℚ
  minlenratio_asr : ℚ
deriving Repr, DecidableEq

/-- The model state consumed by the decode loop: vocabulary size `odim`
(with `sos = eos = odim - 1`, lines 219-220), the wait-k lags, the encoder
output length `h.size(0)` and the dual-decoder score oracle for each
stream (arguments: step index, self-mask length, current hypothesis).
The `end_detect` heuristic of `espnet.nets.e2e_asr_common` is a separate
oracle argument of the loop. -/
structure Ctx where
  odim : ℕ
  wait_k_asr : ℕ
  wait_k_st : ℕ
  hlen : ℕ
  dec_st : ℕ → ℕ → Hyp → List ℚ
  dec_asr : ℕ → ℕ → Hyp → List ℚ

/-- `self.eos = odim - 1` (line 220); `self.sos` is the same index. -/
def Ctx.eos (c : Ctx) : ℕ := c.odim - 1

/-- Descending-by-score order used by `sorted(..., key=lambda x: x['score'],
reverse=True)`. -/
def hypGE (a b : Hyp) : Prop := b.score ≤ a.score

instance : DecidableRel hypGE := fun a b => inferInstanceAs (Decidable (b.score ≤ a.score))

instance : IsTotal Hyp hypGE := ⟨fun a b => le_total b.score a.score⟩

instance : IsTrans Hyp hypGE := ⟨fun _ _ _ h1 h2 => le_trans h2 h1⟩

/-- Python's stable descending sort on hypothesis score. -/
def sortHyps (l : List Hyp) : List Hyp := List.insertionSort hypGE l

/-- Descending order on the score component of an indexed score, as
`torch.topk` returns values (stable on ties by position). -/
def sndGE {α : Type} (a b : α × ℚ) : Prop := b.2 ≤ a.2

instance {α : Type} : DecidableRel (@sndGE α) :=
  fun a b => inferInstanceAs (Decidable (b.2 ≤ a.2))

instance {α : Type} : IsTotal (α × ℚ) sndGE := ⟨fun a b => le_total b.2 a.2⟩

instance {α : Type} : IsTrans (α × ℚ) sndGE := ⟨fun _ _ _ h1 h2 => le_trans h2 h1⟩

/-- `scores.topk(k)`: the `k` largest entries of a score vector together
with their indices, values descending. -/
def topkIdx (k : ℕ) (l : List ℚ) : List (ℕ × ℚ) :=
  (List.insertionSort sndGE l.enum).take k

/-- The flattened outer-sum matrix
`S = mm(t(xk), ones) + mm(t(ones), yk)` paired with
`s2v = [[i, j] for i in ixk for j in iyk]` (lines 577-579): entry
`((st_id, asr_id), st_score + asr_score)` in row-major order (ST candidate
is the row). -/
def pairMatrix (xs ys : List (ℕ × ℚ)) : List ((ℕ × ℕ) × ℚ) :=
  xs.flatMap fun a => ys.map fun b => ((a.1, b.1), a.2 + b.2)

/-- `flatten().topk(beam)` over a flattened candidate matrix. -/
def topkFlat (k : ℕ) (cands : List ((ℕ × ℕ) × ℚ)) : List ((ℕ × ℕ) × ℚ) :=
  (List.insertionSort sndGE cands).take k

/-- `int((1 - ratio) * beam)`: the retained span of a diversity ratio
(lines 590, 603, 616-617). -/
def retain (r : ℚ) (beam : ℕ) : ℕ := Int.toNat ⌊(1 - r) * (beam : ℚ)⌋

/-- `cr = int((1 - ratio_diverse_asr) * beam)` of the both-ratios branch
(line 616). -/
def cr_both (beam : ℕ) (rasr : ℚ) : ℕ := retain rasr beam

/-- `ct = max(ct, math.ceil(beam // cr))` of the both-ratios branch
(lines 617-618).  `beam // cr` is integer floor division and `math.ceil`
of an integer is that integer, so the widening term is `beam / cr`
rounded down. -/
def ct_both (beam : ℕ) (rst rasr : ℚ) : ℕ :=
  max (retain rst beam) (beam / cr_both beam rasr)

/-- The per-step joint selection over both streams' distributions
(lines 573-629): top-`beam` per-stream candidates, outer-sum matrix,
then top-`beam` pairs of the (possibly diversity-restricted) sub-matrix.
Rows are ST candidates, columns ASR candidates; `ratio_diverse_st`
restricts columns, `ratio_diverse_asr` restricts rows, and with both
positive the column span is widened by `beam // cr`. -/
def diverseSelect (beam : ℕ) (rst rasr : ℚ) (stScores asrScores : List ℚ) :
    List ((ℕ × ℕ) × ℚ) :=
  let xs := topkIdx beam stScores
  let ys := topkIdx beam asrScores
  if rst ≤ 0 ∧ rasr ≤ 0 then
    topkFlat beam (pairMatrix xs ys)
  else if 0 < rst ∧ rasr ≤ 0 then
    topkFlat beam (pairMatrix xs (ys.take (retain rst beam)))
  else if 0 < rasr ∧ rst ≤ 0 then
    topkFlat beam (pairMatrix (xs.take (retain rasr beam)) ys)
  else
    topkFlat beam (pairMatrix (xs.take (cr_both beam rasr)) (ys.take (ct_both beam rst rasr)))

/-- The spec's unrestricted joint top-k (stated from the spec's words, for
comparison with the source's `diverseSelect`): select the top-`beam`
`(st, asr)` pairs of the full outer-sum matrix over the top-`beam`
candidates of each stream. -/
def specJointTopK (beam : ℕ) (stScores asrScores : List ℚ) : List ((ℕ × ℕ) × ℚ) :=
  topkFlat beam (pairMatrix (topkIdx beam stScores) (topkIdx beam asrScores))

/-- The subsequent-position self-mask length of one stream at step `i`
given the other stream's wait-k lag (lines 535-541 for the ST stream with
`wait_k_asr`, lines 544-550 for the ASR stream with `wait_k_st`). -/
def selfMaskLen (wait_k i : ℕ) : ℕ :=
  if 0 < wait_k then (if i < wait_k then 1 else i - wait_k + 1) else i + 1

/-- The ST-stream distribution at step `i`, or `none` when suppressed
(lines 568-569): suppressed once the stream emitted `eos` past step 2, or
while still inside the `wait_k_asr` window. -/
def stScoresOpt (c : Ctx) (i : ℕ) (hyp : Hyp) : Option (List ℚ) :=
  if (hyp.yseq.getLastD 0 = c.eos ∧ 2 < i) ∨ i < c.wait_k_asr then none
  else some (c.dec_st i (selfMaskLen c.wait_k_asr i) hyp)

/-- The ASR-stream distribution at step `i`, or `none` when suppressed
(lines 570-571). -/
def asrScoresOpt (c : Ctx) (i : ℕ) (hyp : Hyp) : Option (List ℚ) :=
  if (hyp.yseq_asr.getLastD 0 = c.eos ∧ 2 < i) ∨ i < c.wait_k_st then none
  else some (c.dec_asr i (selfMaskLen c.wait_k_st i) hyp)

/-- One hypothesis' children at step `i` (lines 573-667): when both
distributions are present, joint selection; when only one is present, its
plain top-`beam` with the other stream forced (`eos` appended once past
its wait-k lag, carried unchanged before it); when neither is present the
source raises `NotImplementedError`, modelled as no children. -/
def expandChildren (c : Ctx) (beam : ℕ) (rst rasr : ℚ) (i : ℕ) (hyp : Hyp) :
    List Hyp :=
  match stScoresOpt c i hyp, asrScoresOpt c i hyp with
  | some s, some t =>
    (diverseSelect beam rst rasr s t).map fun p =>
      { score := hyp.score + p.2
        yseq := hyp.yseq ++ [p.1.1]
        yseq_asr := hyp.yseq_asr ++ [p.1.2] }
  | some s, none =>
    (topkIdx beam s).map fun p =>
      { score := hyp.score + p.2
        yseq := hyp.yseq ++ [p.1]
        yseq_asr := if c.wait_k_st ≤ i then hyp.yseq_asr ++ [c.eos] else hyp.yseq_asr }
  | none, some t =>
    (topkIdx beam t).map fun p =>
      { score := hyp.score + p.2
        yseq := if c.wait_k_asr ≤ i then hyp.yseq ++ [c.eos] else hyp.yseq
        yseq_asr := hyp.yseq_asr ++ [p.1] }
  | none, none => []

/-- `hyps_best_kept.append(new_hyp)` followed by the stable descending
sort-and-truncate to `beam` entries (lines 667-670, executed after every
single append). -/
def keepBest (beam : ℕ) (acc : List Hyp) (h : Hyp) : List Hyp :=
  (sortHyps (acc ++ [h])).take beam

/-- One full expansion step over the beam (lines 532-673): every
hypothesis' children are appended one by one into the kept list, which is
re-sorted and truncated after each append. -/
def stepHyps (c : Ctx) (beam : ℕ) (rst rasr : ℚ) (i : ℕ) (hyps : List Hyp) :
    List Hyp :=
  hyps.foldl (fun acc hyp => (expandChildren c beam rst rasr i hyp).foldl (keepBest beam) acc) []

/-- Force-append `eos` to the ST stream unless it already ends with it
(lines 683-685). -/
def addEosSt (eos : ℕ) (h : Hyp) : Hyp :=
  if h.yseq.getLastD 0 ≠ eos then { h with yseq := h.yseq ++ [eos] } else h

/-- Force-append `eos` to the ASR stream unless it already ends with it
(lines 688-690). -/
def addEosAsr (eos : ℕ) (h : Hyp) : Hyp :=
  if h.yseq_asr.getLastD 0 ≠ eos then { h with yseq_asr := h.yseq_asr ++ [eos] } else h

/-- Partition the beam into remaining and newly ended hypotheses
(lines 694-707): a hypothesis with both streams ending in `eos` is moved
to the ended side when both lengths exceed their minimum (with the length
penalty added once), silently dropped otherwise; all others remain. -/
def partitionEnded (eos minlen minlen_asr : ℕ) (penalty : ℚ) (i : ℕ) :
    List Hyp → List Hyp × List Hyp
  | [] => ([], [])
  | h :: hs =>
    let rest := partitionEnded eos minlen minlen_asr penalty i hs
    if h.yseq.getLastD 0 = eos ∧ h.yseq_asr.getLastD 0 = eos then
      if minlen < h.yseq.length ∧ minlen_asr < h.yseq_asr.length then
        (rest.1, { h with score := h.score + ((i : ℚ) + 1) * penalty } :: rest.2)
      else (rest.1, rest.2)
    else (h :: rest.1, rest.2)

/-- One iteration of the decode loop without its control flow
(lines 532-707): expand the beam, force `eos` at each stream's final
position, then partition into (remaining, newly ended). -/
def loopStep (c : Ctx) (args : TransArgs) (rst rasr : ℚ)
    (maxlen maxlen_asr minlen minlen_asr i : ℕ) (hyps : List Hyp) :
    List Hyp × List Hyp :=
  let hyps1 := stepHyps c args.beam_size rst rasr i hyps
  let hyps2 := if i + 1 = maxlen then hyps1.map (addEosSt c.eos) else hyps1
  let hyps3 := if i + 1 = maxlen_asr then hyps2.map (addEosAsr c.eos) else hyps2
  partitionEnded c.eos minlen minlen_asr args.penalty i hyps3

/-- The decode loop (lines 529-726), iterated with explicit fuel (the
source iterates `i` over `range(max(maxlen, maxlen_asr))`): run one step,
accumulate the newly ended hypotheses, stop early when `end_detect` fires
while `maxlenratio == 0`, stop when the beam empties. -/
def decodeLoop (c : Ctx) (ed : List Hyp → ℕ → Bool) (args : TransArgs) (rst rasr : ℚ)
    (maxlen maxlen_asr minlen minlen_asr : ℕ) :
    ℕ → ℕ → List Hyp → List Hyp → List Hyp
  | 0, _, _, ended => ended
  | fuel + 1, i, hyps, ended =>
    let pe := loopStep c args rst rasr maxlen maxlen_asr minlen minlen_asr i hyps
    let ended1 := ended ++ pe.2
    if ed ended1 i ∧ args.maxlenratio = 0 then ended1
    else if pe.1 = [] then ended1
    else decodeLoop c ed args rst rasr maxlen maxlen_asr minlen minlen_asr fuel (i + 1) pe.1 ended1

/-- `maxlen` derivation (lines 505-512): ratio `0` is the sentinel for the
full encoder length, otherwise `max(1, int(ratio * h.size(0)))`. -/
def maxlenOf (c : Ctx) (r : ℚ) : ℕ :=
  if r = 0 then c.hlen else max 1 (Int.toNat ⌊r * (c.hlen : ℚ)⌋)

/-- `minlen = int(ratio * h.size(0))` (lines 513-514). -/
def minlenOf (c : Ctx) (r : ℚ) : ℕ := Int.toNat ⌊r * (c.hlen : ℚ)⌋

/-- The ended-hypothesis set accumulated by one full run of the decode
loop (lines 518-726), starting from the single hypothesis holding only
the start marker in both streams. -/
def decodeEnded (c : Ctx) (ed : List Hyp → ℕ → Bool) (args : TransArgs)
    (rst rasr : ℚ) : List Hyp :=
  let maxlen := maxlenOf c args.maxlenratio
  let maxlen_asr := maxlenOf c args.maxlenratio_asr
  decodeLoop c ed args rst rasr maxlen maxlen_asr
    (minlenOf c args.minlenratio) (minlenOf c args.minlenratio_asr)
    (max maxlen maxlen_asr) 0 [⟨0, [c.odim - 1], [c.odim - 1]⟩] []

/-- The n-best extraction of one pass (lines 728-729): sort the ended set
descending by score, keep `min(len(ended_hyps), nbest)` entries. -/
def decodePass (c : Ctx) (ed : List Hyp → ℕ → Bool) (args : TransArgs)
    (rst rasr : ℚ) : List Hyp :=
  let e := decodeEnded c ed args rst rasr
  (sortHyps e).take (min e.length args.nbest)

/-- The fallback adjustment (lines 735-737): both minimum-length ratios
relaxed by `0.1` with a floor at `0`; every other field kept. -/
def relaxArgs (args : TransArgs) : TransArgs :=
  { args with minlenratio := max 0 (args.minlenratio - 1 / 10),
              minlenratio_asr := max 0 (args.minlenratio_asr - 1 / 10) }

/-- `recognize_and_translate_sum` (lines 453-743) with explicit retry
fuel for the empty-result recursion of line 738 (the source recursion is
unbounded; exhausted fuel yields the empty list).  The recursive call
passes only `(x, trans_args, char_list, rnnlm)`, so `decode_asr_weight`,
`ratio_diverse_st` and `ratio_diverse_asr` revert to their defaults
`1.0`, `0.0`, `0.0`. -/
def recognize_and_translate_sum (c : Ctx) (ed : List Hyp → ℕ → Bool) :
    ℕ → TransArgs → ℚ → ℚ → ℚ → List Hyp
  | 0, _, _, _, _ => []
  | fuel + 1, args, _decode_asr_weight, rst, rasr =>
    let nbest_hyps := decodePass c ed args rst rasr
    if nbest_hyps = [] then
      recognize_and_translate_sum c ed fuel (relaxArgs args) 1 0 0
    else nbest_hyps

/-! Concrete instances used by the closed theorems below.  The two decode
oracles are constant score vectors over a 3-token vocabulary
(`sos = eos = 2`). -/

/-- A small concrete model: the ST oracle always peaks on token `2` (the
eos marker), the ASR oracle on token `0`. -/
def ctxRun : Ctx :=
  { odim := 3
    wait_k_asr := 0
    wait_k_st := 0
    hlen := 2
    dec_st := fun _ _ _ => [0, 0, 1]
    dec_asr := fun _ _ _ => [1, 0, 0] }

/-- An `end_detect` oracle that always signals convergence. -/
def edTrue : List Hyp → ℕ → Bool := fun _ _ => true

/-- An `end_detect` oracle that never signals convergence. -/
def edFalse : List Hyp → ℕ → Bool := fun _ _ => false

/-- A search configuration with the ST max-length ratio at the sentinel `0`
and a nonzero ASR max-length ratio. -/
def argsRun : TransArgs :=
  { beam_size := 1
    penalty := 0
    nbest := 1
    maxlenratio := 0
    maxlenratio_asr := 2
    minlenratio := 0
    minlenratio_asr := 0 }

/-- `ctxRun` over a longer encoder output. -/
def ctxFrozen : Ctx := { ctxRun with hlen := 5 }

/-- `ctxFrozen` with a one-step ASR-first lag. -/
def ctxNoOp : Ctx := { ctxFrozen with wait_k_asr := 1 }

/-- A context with an empty encoder output, so the decode loop runs zero
steps and the ended set stays empty. -/
def ctxEmpty : Ctx := { ctxRun with hlen := 0 }

/-- A configuration with both max-length ratios at the sentinel `0`. -/
def argsEmpty : TransArgs :=
  { beam_size := 1
    penalty := 0
    nbest := 1
    maxlenratio := 0
    maxlenratio_asr := 0
    minlenratio := 1 / 2
    minlenratio_asr := 1 / 2 }

/-- `argsRun` with a nonzero ST max-length ratio. -/
def argsNZ : TransArgs := { argsRun with maxlenratio := 1 }

/-- C5 (counterexample): with `wait_k_asr = 2` at step `i = 0` the source
requests `subsequent_mask(1)` (line 537), a self-mask length of `1`, not
the claimed floor-limit `i = 0`. -/
theorem wait_k_window_mask_len_cex : selfMaskLen 2 0 = 1 ∧ (1 : ℕ) ≠ 0 := by decide

/-- C5 (amended): while a positive wait-k lag is not yet satisfied the
requested self-mask length is the constant `1`; from step `wait_k` on it is
`i - wait_k + 1`; with no lag it is `i + 1`.  The decode loop requests the
ST-stream mask with `wait_k = wait_k_asr` and the ASR-stream mask with
`wait_k = wait_k_st`. -/
theorem selfMaskLen_characterization (wait_k i : ℕ) :
    (0 < wait_k →
      (i < wait_k → selfMaskLen wait_k i = 1) ∧
      (wait_k ≤ i → selfMaskLen wait_k i = i - wait_k + 1)) ∧
    (wait_k = 0 → selfMaskLen wait_k i = i + 1) := by
  unfold selfMaskLen
  refine ⟨fun hw => ⟨fun hi => ?_, fun hi => ?_⟩, fun hw => ?_⟩
  · rw [if_pos hw, if_pos hi]
  · rw [if_pos hw, if_neg (not_lt.mpr hi)]
  · rw [if_neg (by omega)]

/-- C3 (counterexample): at `beam = 5`, `ratio_diverse_st = 7/10`,
`ratio_diverse_asr = 1/2` the source computes `cr = 2` and
`ct = max(int(0.3*5), ceil(5 // 2)) = 2`, not the claimed
`ceil(5 / 2) = 3`; the restricted sub-matrix holds `2 * 2 = 4 < 5` pairs. -/
theorem diversity_widening_cex :
    cr_both 5 (1 / 2) = 2 ∧ ct_both 5 (7 / 10) (1 / 2) = 2 ∧
    ¬ (5 : ℕ) ≤ cr_both 5 (1 / 2) * ct_both 5 (7 / 10) (1 / 2) ∧
    ¬ (⌈(5 : ℚ) / 2⌉ : ℤ) ≤ (ct_both 5 (7 / 10) (1 / 2) : ℤ) := by
  have h1 : cr_both 5 (1 / 2) = 2 := by with_unfolding_all rfl
  have h2 : ct_both 5 (7 / 10) (1 / 2) = 2 := by with_unfolding_all rfl
  refine ⟨h1, h2, ?_, ?_⟩
  · rw [h1, h2]; decide
  · rw [h2]; rw [not_le, Int.lt_ceil]; norm_num

/-- C3 (amended): with both diversity ratios positive, the top-`beam` pairs
are selected from the sub-matrix of the first `cr` ST rows and the first
`ct` ASR columns, where `ct` is widened only to the floor quotient
`beam / cr` (the source's `math.ceil(beam // cr)` is the identity on the
integer floor division), which does not guarantee `beam` pairs in the
restricted sub-matrix. -/
theorem diverse_both_branch_floor_widening (beam : ℕ) (rst rasr : ℚ)
    (st asr : List ℚ) (h1 : 0 < rst) (h2 : 0 < rasr) :
    diverseSelect beam rst rasr st asr =
      topkFlat beam (pairMatrix ((topkIdx beam st).take (cr_both beam rasr))
        ((topkIdx beam asr).take (ct_both beam rst rasr))) ∧
    beam / cr_both beam rasr ≤ ct_both beam rst rasr := by
  constructor
  · unfold diverseSelect
    rw [if_neg (by push_neg; intro h; exact absurd h (not_le.mpr h1)),
        if_neg (by rintro ⟨-, h⟩; exact absurd h2 (not_lt.mpr h)),
        if_neg (by rintro ⟨-, h⟩; exact absurd h1 (not_lt.mpr h))]
  · exact le_max_right _ _

/-- C3 (witness): the amended selection equation at `beam = 5`,
`ratio_diverse_st = 7/10`, `ratio_diverse_asr = 1/2`. -/
theorem diverse_both_branch_floor_widening_witness :
    diverseSelect 5 (7 / 10) (1 / 2) [1, 2] [3, 4] =
      topkFlat 5 (pairMatrix ((topkIdx 5 [1, 2]).take (cr_both 5 (1 / 2)))
        ((topkIdx 5 [3, 4]).take (ct_both 5 (7 / 10) (1 / 2)))) ∧
    5 / cr_both 5 (1 / 2) ≤ ct_both 5 (7 / 10) (1 / 2) :=
  diverse_both_branch_floor_widening 5 (7 / 10) (1 / 2) [1, 2] [3, 4]
    (by norm_num) (by norm_num)

/-- C4 (counterexample): raising `ratio_diverse_st` from `1/10` to `3/20`
at `beam = 5` leaves the retained column span at `int((1-r)*5) = 4`: the
span shrinks weakly, not strictly. -/
theorem retained_span_not_strict_cex :
    (1 / 10 : ℚ) < 3 / 20 ∧ retain (1 / 10) 5 = 4 ∧ retain (3 / 20) 5 = 4 := by
  refine ⟨by norm_num, ?_, ?_⟩ <;> with_unfolding_all rfl

/-- C4 (amended): the retained span `int((1-r)*beam)` is weakly decreasing
in the diversity ratio, and with both ratios `0` the per-step selection is
exactly the unrestricted joint top-k over the full outer-sum matrix. -/
theorem diversity_weakly_monotone_and_zero_identity (beam : ℕ) (r1 r2 : ℚ)
    (st asr : List ℚ) (h : r1 ≤ r2) :
    retain r2 beam ≤ retain r1 beam ∧
    diverseSelect beam 0 0 st asr = specJointTopK beam st asr := by
  constructor
  · unfold retain
    exact Int.toNat_le_toNat (Int.floor_le_floor
      (mul_le_mul_of_nonneg_right (by linarith) (by positivity)))
  · unfold diverseSelect specJointTopK
    rw [if_pos ⟨le_refl 0, le_refl 0⟩]

/-- C4 (witness): the amended monotonicity and zero-ratio identity at
`beam = 5`, ratios `1/10 ≤ 3/20`. -/
theorem diversity_weakly_monotone_and_zero_identity_witness :
    retain (3 / 20) 5 ≤ retain (1 / 10) 5 ∧
    diverseSelect 5 0 0 [1, 2] [3, 4] = specJointTopK 5 [1, 2] [3, 4] :=
  diversity_weakly_monotone_and_zero_identity 5 (1 / 10) (3 / 20) [1, 2] [3, 4]
    (by norm_num)

/-- Helper: the ended list built by the loop is only ever appended to:
whatever was pushed earlier is still there, unchanged, in the final list. -/
theorem decodeLoop_append_only (c : Ctx) (ed : List Hyp → ℕ → Bool)
    (args : TransArgs) (rst rasr : ℚ) (ml mla mnl mnla : ℕ) :
    ∀ fuel i hyps ended, ∃ l,
      decodeLoop c ed args rst rasr ml mla mnl mnla fuel i hyps ended = ended ++ l := by
  intro fuel
  induction fuel with
  | zero => intro i hyps ended; exact ⟨[], by simp [decodeLoop]⟩
  | succ n ih =>
    intro i hyps ended
    rw [decodeLoop]
    split
    · exact ⟨_, rfl⟩
    · split
      · exact ⟨_, rfl⟩
      · obtain ⟨l, hl⟩ := ih (i + 1)
          (loopStep c args rst rasr ml mla mnl mnla i hyps).1
          (ended ++ (loopStep c args rst rasr ml mla mnl mnla i hyps).2)
        refine ⟨(loopStep c args rst rasr ml mla mnl mnla i hyps).2 ++ l, ?_⟩
        rw [hl, List.append_assoc]

/-- C6 (counterexample): in `ctxFrozen` (`eos = 2`, no lag) the hypothesis
whose ST stream already ends with `eos` still receives a further token at
step `i = 3`: its only child has `yseq = [2, 1, 2, 2] ≠ [2, 1, 2]`, so the
stream is not frozen after emitting `eos`. -/
theorem eos_stream_regrows_cex :
    (Hyp.mk 0 [2, 1, 2] [2, 0, 1]).yseq.getLastD 0 = ctxFrozen.eos ∧
    expandChildren ctxFrozen 1 0 0 3 (Hyp.mk 0 [2, 1, 2] [2, 0, 1]) =
      [Hyp.mk 1 [2, 1, 2, 2] [2, 0, 1, 0]] ∧
    [2, 1, 2, 2] ≠ [2, 1, 2] := by
  refine ⟨by with_unfolding_all rfl, by with_unfolding_all rfl, by decide⟩

/-- C6 (amended): once a stream's last token is the eos marker and the
step index is past 2, that stream's distribution is suppressed and every
child either appends exactly one further eos marker (once past the
opposite wait-k lag) or carries the stream unchanged (before the lag); a
non-eos token is never appended to an ended stream after step 2. -/
theorem eos_stream_appends_only_eos (c : Ctx) (beam : ℕ) (rst rasr : ℚ)
    (i : ℕ) (hyp : Hyp) :
    (2 < i → hyp.yseq.getLastD 0 = c.eos →
      ∀ ch ∈ expandChildren c beam rst rasr i hyp,
        ch.yseq = hyp.yseq ++ [c.eos] ∨ ch.yseq = hyp.yseq) ∧
    (2 < i → hyp.yseq_asr.getLastD 0 = c.eos →
      ∀ ch ∈ expandChildren c beam rst rasr i hyp,
        ch.yseq_asr = hyp.yseq_asr ++ [c.eos] ∨ ch.yseq_asr = hyp.yseq_asr) := by
  constructor
  · intro hi hl ch hch
    have hst : stScoresOpt c i hyp = none := by
      unfold stScoresOpt; exact if_pos (Or.inl ⟨hl, hi⟩)
    cases hasr : asrScoresOpt c i hyp with
    | none =>
      unfold expandChildren at hch; rw [hst, hasr] at hch; simp at hch
    | some t =>
      unfold expandChildren at hch; rw [hst, hasr] at hch
      obtain ⟨p, -, rfl⟩ := List.mem_map.mp hch
      by_cases hw : c.wait_k_asr ≤ i
      · left; simp [hw]
      · right; simp [hw]
  · intro hi hl ch hch
    have hasr : asrScoresOpt c i hyp = none := by
      unfold asrScoresOpt; exact if_pos (Or.inl ⟨hl, hi⟩)
    cases hst : stScoresOpt c i hyp with
    | none =>
      unfold expandChildren at hch; rw [hst, hasr] at hch; simp at hch
    | some s =>
      unfold expandChildren at hch; rw [hst, hasr] at hch
      obtain ⟨p, -, rfl⟩ := List.mem_map.mp hch
      by_cases hw : c.wait_k_st ≤ i
      · left; simp [hw]
      · right; simp [hw]

/-- C6 (witness): the amended freeze property applied to the concrete
ended-ST hypothesis of `eos_stream_regrows_cex`. -/
theorem eos_stream_appends_only_eos_witness :
    2 < 3 ∧
    ∀ ch ∈ expandChildren ctxFrozen 1 0 0 3 (Hyp.mk 0 [2, 1, 2] [2, 0, 1]),
      ch.yseq = [2, 1, 2] ++ [ctxFrozen.eos] ∨ ch.yseq = [2, 1, 2] :=
  ⟨by decide,
    (eos_stream_appends_only_eos ctxFrozen 1 0 0 3 (Hyp.mk 0 [2, 1, 2] [2, 0, 1])).1
      (by decide) (by with_unfolding_all rfl)⟩

/-- C8 (counterexample): in `ctxNoOp` (`wait_k_asr = 1`) at step `i = 0`
the ST distribution is suppressed by the lag and the child's ST list is
the parent's list unchanged, not a copy extended by a token. -/
theorem no_op_child_not_extended_cex :
    expandChildren ctxNoOp 1 0 0 0 (Hyp.mk 0 [2] [2]) = [Hyp.mk 1 [2] [2, 0]] ∧
    ∀ t : ℕ, [2] ≠ [2] ++ [t] := by
  refine ⟨by with_unfolding_all rfl, by simp⟩

/-- C8 (amended): each child of a beam expansion is a fresh record whose
stream lists are the parent's lists extended by exactly one token, except
that a stream forced to a no-op (its distribution suppressed while still
before its wait-k lag) carries the parent's list unchanged; and the ended
set is append-only: everything pushed into it is still there, unchanged,
when the loop finishes. -/
theorem copy_on_expand_or_carry (c : Ctx) (ed : List Hyp → ℕ → Bool)
    (args : TransArgs) (rst rasr : ℚ) (i : ℕ) (hyp : Hyp) :
    (∀ ch ∈ expandChildren c args.beam_size rst rasr i hyp,
      ((∃ t, ch.yseq = hyp.yseq ++ [t]) ∨ (ch.yseq = hyp.yseq ∧ i < c.wait_k_asr)) ∧
      ((∃ t, ch.yseq_asr = hyp.yseq_asr ++ [t]) ∨ (ch.yseq_asr = hyp.yseq_asr ∧ i < c.wait_k_st))) ∧
    (∀ ml mla mnl mnla fuel i0 hyps ended, ∃ l,
      decodeLoop c ed args rst rasr ml mla mnl mnla fuel i0 hyps ended = ended ++ l) := by
  constructor
  · intro ch hch
    cases hst : stScoresOpt c i hyp with
    | none =>
      have hnw : ¬ ((hyp.yseq.getLastD 0 = c.eos ∧ 2 < i) ∨ i < c.wait_k_asr) → False := by
        intro hcon
        unfold stScoresOpt at hst
        rw [if_neg hcon] at hst
        exact Option.noConfusion hst
      cases hasr : asrScoresOpt c i hyp with
      | none => unfold expandChildren at hch; rw [hst, hasr] at hch; simp at hch
      | some t =>
        unfold expandChildren at hch; rw [hst, hasr] at hch
        obtain ⟨p, -, rfl⟩ := List.mem_map.mp hch
        constructor
        · by_cases hw : c.wait_k_asr ≤ i
          · left; exact ⟨c.eos, by simp [hw]⟩
          · right; exact ⟨by simp [hw], not_le.mp hw⟩
        · left; exact ⟨p.1, rfl⟩
    | some s =>
      cases hasr : asrScoresOpt c i hyp with
      | none =>
        unfold expandChildren at hch; rw [hst, hasr] at hch
        obtain ⟨p, -, rfl⟩ := List.mem_map.mp hch
        constructor
        · left; exact ⟨p.1, rfl⟩
        · by_cases hw : c.wait_k_st ≤ i
          · left; exact ⟨c.eos, by simp [hw]⟩
          · right; exact ⟨by simp [hw], not_le.mp hw⟩
      | some t =>
        unfold expandChildren at hch; rw [hst, hasr] at hch
        obtain ⟨p, -, rfl⟩ := List.mem_map.mp hch
        exact ⟨Or.inl ⟨p.1.1, rfl⟩, Or.inl ⟨p.1.2, rfl⟩⟩
  · intro ml mla mnl mnla fuel i0 hyps ended
    exact decodeLoop_append_only c ed args rst rasr ml mla mnl mnla fuel i0 hyps ended

/-- Helper: with a nonzero `maxlenratio` the break test
`end_detect(...) and trans_args.maxlenratio == 0.0` (line 710) can never
hold, so the loop result does not depend on the end-detect oracle. -/
theorem decodeLoop_ed_irrelevant (c : Ctx) (ed ed' : List Hyp → ℕ → Bool)
    (args : TransArgs) (rst rasr : ℚ) (ml mla mnl mnla : ℕ)
    (hml : args.maxlenratio ≠ 0) :
    ∀ fuel i hyps ended,
      decodeLoop c ed args rst rasr ml mla mnl mnla fuel i hyps ended =
        decodeLoop c ed' args rst rasr ml mla mnl mnla fuel i hyps ended := by
  intro fuel
  induction fuel with
  | zero => intro i hyps ended; rfl
  | succ n ih =>
    intro i hyps ended
    rw [decodeLoop, decodeLoop]
    have h1 : ¬ (ed (ended ++ (loopStep c args rst rasr ml mla mnl mnla i hyps).2) i = true
        ∧ args.maxlenratio = 0) := fun h => hml h.2
    have h2 : ¬ (ed' (ended ++ (loopStep c args rst rasr ml mla mnl mnla i hyps).2) i = true
        ∧ args.maxlenratio = 0) := fun h => hml h.2
    rw [if_neg h1, if_neg h2]
    split
    · rfl
    · exact ih (i + 1) _ _

/-- C7 (counterexample): on `ctxRun` with `argsRun` — whose
`maxlenratio_asr = 2` is not the sentinel `0` — an always-signalling
end-detect oracle stops the loop at step 0 with an empty ended set, while
a never-signalling one lets it run to a nonempty result: end detection
terminated the loop early although `maxlenratio_asr ≠ 0`. -/
theorem end_detect_break_despite_nonzero_maxlenratio_asr :
    argsRun.maxlenratio_asr ≠ 0 ∧
    decodePass ctxRun edTrue argsRun 0 0 = [] ∧
    decodePass ctxRun edFalse argsRun 0 0 =
      [Hyp.mk 7 [2, 2, 2, 2, 2] [2, 0, 0, 0, 0, 2]] := by
  refine ⟨by norm_num [argsRun], ?_, ?_⟩ <;> with_unfolding_all rfl

/-- C7 (amended): the early-stop test of line 710 reads only
`maxlenratio`: whenever `maxlenratio ≠ 0` the decode result is entirely
independent of the end-detect oracle (no early end-detection stop),
whatever `maxlenratio_asr` is. -/
theorem end_detect_break_reads_only_maxlenratio (c : Ctx)
    (ed ed' : List Hyp → ℕ → Bool) (args : TransArgs) (rst rasr : ℚ)
    (hml : args.maxlenratio ≠ 0) :
    decodePass c ed args rst rasr = decodePass c ed' args rst rasr := by
  unfold decodePass decodeEnded
  rw [decodeLoop_ed_irrelevant c ed ed' args rst rasr _ _ _ _ hml]

/-- C7 (witness): the amended independence at the concrete configuration
`argsNZ` with `maxlenratio = 1`. -/
theorem end_detect_break_reads_only_maxlenratio_witness :
    decodePass ctxRun edTrue argsNZ 0 0 = decodePass ctxRun edFalse argsNZ 0 0 :=
  end_detect_break_reads_only_maxlenratio ctxRun edTrue edFalse argsNZ 0 0
    (by norm_num [argsNZ, argsRun])

/-- Helper: with `nbest ≥ 1`, the n-best extraction of a pass is empty
exactly when the ended set of that pass is empty. -/
theorem decodePass_nil_iff (c : Ctx) (ed : List Hyp → ℕ → Bool)
    (args : TransArgs) (rst rasr : ℚ) (hn : 1 ≤ args.nbest) :
    decodePass c ed args rst rasr = [] ↔ decodeEnded c ed args rst rasr = [] := by
  unfold decodePass
  rw [List.take_eq_nil_iff]
  constructor
  · rintro (h | h)
    · rcases Nat.min_eq_zero_iff.mp h with h0 | h0
      · exact List.length_eq_zero.mp h0
      · omega
    · have hp := List.perm_insertionSort hypGE (decodeEnded c ed args rst rasr)
      unfold sortHyps at h
      rw [h] at hp
      exact (List.perm_nil.mp hp.symm)
  · intro h
    rw [h]
    exact Or.inr (by simp [sortHyps, List.insertionSort])

/-- C9: the fallback retry fires exactly on an empty ended set (for a
valid `nbest ≥ 1`): an empty ended set makes decode recurse on the
configuration with both minimum-length ratios relaxed by `0.1`, floored
at `0`, returning the recursive result; a nonempty ended set returns the
n-best extraction with no retry. -/
theorem fallback_iff_ended_empty (c : Ctx) (ed : List Hyp → ℕ → Bool)
    (fuel : ℕ) (args : TransArgs) (daw rst rasr : ℚ) (hn : 1 ≤ args.nbest) :
    (decodeEnded c ed args rst rasr = [] →
      recognize_and_translate_sum c ed (fuel + 1) args daw rst rasr =
        recognize_and_translate_sum c ed fuel (relaxArgs args) 1 0 0) ∧
    (decodeEnded c ed args rst rasr ≠ [] →
      recognize_and_translate_sum c ed (fuel + 1) args daw rst rasr =
        decodePass c ed args rst rasr) ∧
    (relaxArgs args).minlenratio = max 0 (args.minlenratio - 1 / 10) ∧
    (relaxArgs args).minlenratio_asr = max 0 (args.minlenratio_asr - 1 / 10) := by
  refine ⟨fun he => ?_, fun hne => ?_, rfl, rfl⟩
  · simp only [recognize_and_translate_sum]
    rw [if_pos ((decodePass_nil_iff c ed args rst rasr hn).mpr he)]
  · simp only [recognize_and_translate_sum]
    rw [if_neg (fun h => hne ((decodePass_nil_iff c ed args rst rasr hn).mp h))]

/-- C9 (witness): on the empty-encoder context the ended set is empty and
one retry with the relaxed configuration is made. -/
theorem fallback_iff_ended_empty_witness :
    recognize_and_translate_sum ctxEmpty edFalse 1 argsEmpty 1 0 0 =
      recognize_and_translate_sum ctxEmpty edFalse 0 (relaxArgs argsEmpty) 1 0 0 :=
  (fallback_iff_ended_empty ctxEmpty edFalse 0 argsEmpty 1 0 0
    (by norm_num [argsEmpty])).1 (by with_unfolding_all rfl)

/-- C10: on the empty-result fallback the recursive call receives the
copied configuration with only the two minimum-length ratios changed, and
every optional argument reverts to its default — `decode_asr_weight` to
`1.0` and both diversity ratios to `0.0` — whatever the original caller
supplied. -/
theorem fallback_uses_default_optional_args (c : Ctx) (ed : List Hyp → ℕ → Bool)
    (fuel : ℕ) (args : TransArgs) (daw rst rasr : ℚ)
    (he : decodeEnded c ed args rst rasr = []) :
    recognize_and_translate_sum c ed (fuel + 1) args daw rst rasr =
      recognize_and_translate_sum c ed fuel
        { args with minlenratio := max 0 (args.minlenratio - 1 / 10),
                    minlenratio_asr := max 0 (args.minlenratio_asr - 1 / 10) } 1 0 0 := by
  have hp : decodePass c ed args rst rasr = [] := by
    unfold decodePass
    rw [he]
    simp [sortHyps, List.insertionSort]
  simp only [recognize_and_translate_sum]
  rw [if_pos hp]
  rfl

/-- C10 (witness): a caller-supplied `decode_asr_weight = 5`,
`ratio_diverse_st = 1/4`, `ratio_diverse_asr = 1/3` all revert on the
retry. -/
theorem fallback_uses_default_optional_args_witness :
    recognize_and_translate_sum ctxEmpty edFalse 3 argsEmpty 5 (1 / 4) (1 / 3) =
      recognize_and_translate_sum ctxEmpty edFalse 2
        { argsEmpty with minlenratio := max 0 (argsEmpty.minlenratio - 1 / 10),
                         minlenratio_asr := max 0 (argsEmpty.minlenratio_asr - 1 / 10) } 1 0 0 :=
  fallback_uses_default_optional_args ctxEmpty edFalse 2 argsEmpty 5 (1 / 4) (1 / 3)
    (by with_unfolding_all rfl)

/-- Helper: everything on the ended side of the partition passed the
guards of lines 697-700: both streams end with `eos` and both lengths
exceed their minimum. -/
theorem mem_partitionEnded_snd (eos minlen minlen_asr : ℕ) (penalty : ℚ) (i : ℕ) :
    ∀ hyps h, h ∈ (partitionEnded eos minlen minlen_asr penalty i hyps).2 →
      h.yseq.getLastD 0 = eos ∧ h.yseq_asr.getLastD 0 = eos ∧
      minlen < h.yseq.length ∧ minlen_asr < h.yseq_asr.length := by
  intro hyps
  induction hyps with
  | nil => intro h hh; simp [partitionEnded] at hh
  | cons a as ih =>
    intro h hh
    simp only [partitionEnded] at hh
    split_ifs at hh with h1 h2
    · rcases List.mem_cons.mp hh with rfl | hmem
      · exact ⟨h1.1, h1.2, h2.1, h2.2⟩
      · exact ih h hmem
    · exact ih h hh
    · exact ih h hh

/-- Helper: every hypothesis the loop ever pushes into the ended set ends
both streams with `eos` and exceeds both minimum lengths. -/
theorem decodeLoop_ended_inv (c : Ctx) (ed : List Hyp → ℕ → Bool)
    (args : TransArgs) (rst rasr : ℚ) (ml mla mnl mnla : ℕ) :
    ∀ fuel i hyps ended,
      (∀ h ∈ ended, h.yseq.getLastD 0 = c.eos ∧ h.yseq_asr.getLastD 0 = c.eos ∧
        mnl < h.yseq.length ∧ mnla < h.yseq_asr.length) →
      ∀ h ∈ decodeLoop c ed args rst rasr ml mla mnl mnla fuel i hyps ended,
        h.yseq.getLastD 0 = c.eos ∧ h.yseq_asr.getLastD 0 = c.eos ∧
        mnl < h.yseq.length ∧ mnla < h.yseq_asr.length := by
  intro fuel
  induction fuel with
  | zero => intro i hyps ended hend h hh; exact hend h hh
  | succ n ih =>
    intro i hyps ended hend h hh
    have hstep : ∀ h ∈ ended ++ (loopStep c args rst rasr ml mla mnl mnla i hyps).2,
        h.yseq.getLastD 0 = c.eos ∧ h.yseq_asr.getLastD 0 = c.eos ∧
        mnl < h.yseq.length ∧ mnla < h.yseq_asr.length := by
      intro h hh
      rcases List.mem_append.mp hh with hmem | hmem
      · exact hend h hmem
      · exact mem_partitionEnded_snd c.eos mnl mnla args.penalty i _ h hmem
    rw [decodeLoop] at hh
    split at hh
    · exact hstep h hh
    · split at hh
      · exact hstep h hh
      · exact ih (i + 1) _ _ hstep h hh

/-- Helper: the ended set of one pass, under that pass's own minimum
lengths. -/
theorem decodeEnded_inv (c : Ctx) (ed : List Hyp → ℕ → Bool)
    (args : TransArgs) (rst rasr : ℚ) :
    ∀ h ∈ decodeEnded c ed args rst rasr,
      h.yseq.getLastD 0 = c.eos ∧ h.yseq_asr.getLastD 0 = c.eos ∧
      minlenOf c args.minlenratio < h.yseq.length ∧
      minlenOf c args.minlenratio_asr < h.yseq_asr.length := by
  intro h hh
  exact decodeLoop_ended_inv c ed args rst rasr _ _ _ _ _ _ _ _
    (by intro x hx; simp at hx) h hh

/-- C1: the ranked list returned by decode has length at most `nbest` and
is sorted in descending order of hypothesis score, for every model,
oracle, configuration and retry fuel. -/
theorem result_length_le_nbest_and_sorted (c : Ctx) (ed : List Hyp → ℕ → Bool)
    (fuel : ℕ) (args : TransArgs) (daw rst rasr : ℚ) :
    (recognize_and_translate_sum c ed fuel args daw rst rasr).length ≤ args.nbest ∧
    List.Sorted hypGE (recognize_and_translate_sum c ed fuel args daw rst rasr) := by
  induction fuel generalizing args daw rst rasr with
  | zero =>
    simp only [recognize_and_translate_sum]
    exact ⟨Nat.zero_le _, List.sorted_nil⟩
  | succ n ih =>
    simp only [recognize_and_translate_sum]
    split
    · exact ih (relaxArgs args) 1 0 0
    · constructor
      · exact le_trans (List.length_take_le _ _) (min_le_right _ _)
      · exact List.Pairwise.sublist (List.take_sublist _ _)
          (List.sorted_insertionSort hypGE _)

/-- C2: every hypothesis in the final n-best list ends both streams with
the eos marker and exceeds the effective minimum lengths, where the
effective configuration is the original one relaxed `k` times (with
`k = 0` when the empty-result fallback was never taken). -/
theorem result_streams_end_eos_exceed_minlen (c : Ctx) (ed : List Hyp → ℕ → Bool)
    (fuel : ℕ) (args : TransArgs) (daw rst rasr : ℚ) :
    ∃ k : ℕ, ∀ h ∈ recognize_and_translate_sum c ed fuel args daw rst rasr,
      h.yseq.getLastD 0 = c.eos ∧ h.yseq_asr.getLastD 0 = c.eos ∧
      minlenOf c (relaxArgs^[k] args).minlenratio < h.yseq.length ∧
      minlenOf c (relaxArgs^[k] args).minlenratio_asr < h.yseq_asr.length := by
  induction fuel generalizing args daw rst rasr with
  | zero =>
    refine ⟨0, ?_⟩
    simp only [recognize_and_translate_sum]
    intro h hh
    simp at hh
  | succ n ih =>
    by_cases hp : decodePass c ed args rst rasr = []
    · obtain ⟨k, hk⟩ := ih (relaxArgs args) 1 0 0
      refine ⟨k + 1, ?_⟩
      simp only [recognize_and_translate_sum]
      rw [if_pos hp]
      intro h hh
      rw [Function.iterate_succ_apply]
      exact hk h hh
    · refine ⟨0, ?_⟩
      simp only [recognize_and_translate_sum]
      rw [if_neg hp]
      intro h hh
      have hmem : h ∈ decodeEnded c ed args rst rasr := by
        unfold decodePass at hh
        exact (List.perm_insertionSort hypGE _).subset (List.mem_of_mem_take hh)
      simpa only [Function.iterate_zero_apply] using
        decodeEnded_inv c ed args rst rasr h hmem

end STDual
